import Mathlib

/-!
# FileLoader (TiCachedImages) — verification of the spec's claims

Shallow embedding of `src/file_loader.js`: the cache-entry class `File`,
the dispatch queue (`requestDispatch` / `dispatchNextTask`), the
`FileLoader.download` state machine, and the pinkySwear promise primitive
(`set`, `then`, `notify`, `progress`, `fin`).

JS numbers that hold timestamps are modelled as `Int` (so that the
subtraction in `File.prototype.expired` behaves as in JS); identifiers and
URLs are `String`s.  `Ti.Utils.md5HexDigest`, an external collaborator, is
modelled as an injective key derivation (represented by the identity on
strings, faithful to the contract "same locator always yields same key,
keys never collide").
-/

namespace FileLoader

/-- The `EXPIRATION_TIME` constant (line 132): default 3600000 ms. -/
def EXPIRATION_TIME : Int := 3600000

/-- The `MAX_ASYNC_TASKS` constant (line 133): default 10. -/
def MAX_ASYNC_TASKS : Nat := 10

/-! ## Cache entry: the `File` class (lines 158-267)

The persisted metadata store (`Ti.App.Properties` object under
`CACHE_METADATA_PROPERTY`, lines 137-142) is a mapping from file id to the
record `{last_used_at, md5}` written by `File.prototype.save`.  We model it
as an association list keyed by the id; `saveMetaData` is the identity on
this model because the model state *is* the persisted object. -/

/-- The record `{last_used_at: ..., md5: ...}` stored per key in the
metadata object (lines 186-189). -/
structure MetaRec where
  last_used_at : Int
  md5 : Option String
  deriving Repr, DecidableEq

/-- The metadata store: key-value mapping persisted via
`Ti.App.Properties` (line 138). -/
def Meta := List (String × MetaRec)

instance : DecidableEq Meta := by unfold Meta; exact inferInstance

/-- Lookup of `metadata[id]` (line 163). -/
def Meta.find (m : Meta) (id : String) : Option MetaRec :=
  (m.find? (fun kv => kv.1 = id)).map (·.2)

/-- Assignment `metadata[id] = rec` (lines 186-189): replaces any previous
record for `id`. -/
def Meta.insert (m : Meta) (id : String) (rec : MetaRec) : Meta :=
  (id, rec) :: m.filter (fun kv => ¬ kv.1 = id)

/-- The in-memory `File` object (constructor lines 161-176).  `file_path`
is kept as the id of the file inside the cache directory; existence of the
stored bytes is looked up in the filesystem model `fs` (a list of ids whose
file exists). -/
structure FileRec where
  id : String
  is_cached : Bool
  last_used_at : Int
  md5 : Option String
  pending : Bool := false
  downloaded : Bool := false
  deriving Repr, DecidableEq

/-- The `File.prototype.exists` (lines 207-209): the filesystem collaborator's
existence probe, modelled by membership of the id in `fs`. -/
def fileExists (fs : List String) (id : String) : Bool :=
  fs.contains id

/-- The `File` constructor (lines 161-176): reload persisted fields when a
metadata record exists (then `is_cached` is the existence probe), else
initialise as never cached. -/
def mkFile (meta : Meta) (fs : List String) (id : String) : FileRec :=
  match meta.find id with
  | some cache_data =>
      { id := id, is_cached := fileExists fs id,
        last_used_at := cache_data.last_used_at, md5 := cache_data.md5 }
  | none =>
      { id := id, is_cached := false, last_used_at := 0, md5 := none }

/-- The `File.prototype.updateLastUsedAt` (lines 179-182): sets
`last_used_at` to the current time. -/
def FileRec.updateLastUsedAt (f : FileRec) (now : Int) : FileRec :=
  { f with last_used_at := now }

/-- The `File.prototype.save` (lines 185-193): writes
`{last_used_at, md5}` into the metadata store, persists it, and sets
`is_cached = true`.  Returns the mutated file and the new store. -/
def FileRec.save (f : FileRec) (meta : Meta) : FileRec × Meta :=
  ({ f with is_cached := true },
   meta.insert f.id { last_used_at := f.last_used_at, md5 := f.md5 })

/-- The freshness test of `File.prototype.expired` (line 217):
`(now - last_used_at) > EXPIRATION_TIME`. -/
def FileRec.expiredCheck (f : FileRec) (now : Int) : Bool :=
  now - f.last_used_at > EXPIRATION_TIME

/-- The `File.prototype.expired` (lines 212-218) in full: when `invalidate` is
true it first forces `last_used_at` to 0 and calls `save()` (which marks
the entry cached and persists a record), then evaluates the freshness
test.  Returns (result, mutated file, new metadata store). -/
def FileRec.expired (f : FileRec) (meta : Meta) (now : Int) (invalidate : Bool) :
    Bool × FileRec × Meta :=
  let (f, meta) :=
    if invalidate then
      ({ f with last_used_at := 0 } : FileRec).save meta
    else (f, meta)
  (f.expiredCheck now, f, meta)

/-! ## Dispatch queue (lines 270-289)

`pending_tasks.dispatch_queue` holds the waiting admission tickets
(pinkySwear promises); `requestDispatch` pushes a fresh ticket,
`dispatchNextTask` shifts and resolves the front ticket — but only when
`dispatch_queue.length < MAX_ASYNC_TASKS`.  The code keeps no counter of
running operations; to state the spec's invariant we track, alongside the
queue, the observable multiset of admitted-but-not-completed operations
(`running`): a ticket moves to `running` exactly when `dispatchNextTask`
resolves it (which spawns its HTTP client in the following turn), and
leaves `running` when its fetch completes (the `fin` hook, which calls
`dispatchNextTask` again, line 356). -/

structure QState where
  dispatch_queue : List Nat
  running : List Nat
  nextId : Nat
  deriving Repr, DecidableEq

def QState.init : QState := { dispatch_queue := [], running := [], nextId := 0 }

/-- The `dispatchNextTask` (lines 281-289): when the *queue length* is below
`MAX_ASYNC_TASKS` (`limit`), shift the front ticket and resolve it (the
resolved ticket's continuation spawns the HTTP client, so the ticket
becomes a running operation); when the queue is empty the shift yields
nothing and the function returns without action. -/
def dispatchNextTask (limit : Nat) (q : QState) : QState :=
  if q.dispatch_queue.length < limit then
    match q.dispatch_queue with
    | [] => q
    | t :: rest => { q with dispatch_queue := rest, running := q.running ++ [t] }
  else q

/-- The `requestDispatch` (lines 274-278): create a fresh ticket promise and
push it on the queue. -/
def requestDispatch (q : QState) : Nat × QState :=
  (q.nextId,
   { q with dispatch_queue := q.dispatch_queue ++ [q.nextId], nextId := q.nextId + 1 })

/-- A `download` call on the fetch path, restricted to its dispatch-queue
interaction (lines 336, 361): `requestDispatch()` followed by one
`dispatchNextTask()` at the end of `download`. -/
def newTask (limit : Nat) (q : QState) : QState :=
  dispatchNextTask limit (requestDispatch q).2

/-- Completion of a running fetch (success or failure): the operation
leaves the running set and the `fin` hook calls `dispatchNextTask`
(lines 353-357). -/
def completeTask (limit : Nat) (q : QState) (t : Nat) : QState :=
  dispatchNextTask limit { q with running := q.running.erase t }

/-- The `n` fetch-path `download` calls for distinct keys arriving in one
turn. -/
def newTasks (limit : Nat) (n : Nat) (q : QState) : QState :=
  match n with
  | 0 => q
  | n + 1 => newTasks limit n (newTask limit q)

/-! ## pinkySwear settle (lines 395-404)

`set` ("the promise function"): settle only when still pending
(`state == null`); record state and values and schedule (via
`defer` = `setTimeout 0`, line 387, hence never synchronously) the run of
all previously attached continuations.  The returned flag records whether
a flush was scheduled. -/

structure PinkyProm (V : Type) where
  state : Option Bool
  values : List V
  deriving Repr, DecidableEq

/-- The `set` (lines 395-404): no-op when already settled, otherwise records
`newState`/`newValues` and schedules the deferred continuations. -/
def pinkySet {V : Type} (p : PinkyProm V) (newState : Bool) (newValues : List V) :
    PinkyProm V × Bool :=
  if p.state = none then
    ({ state := some newState, values := newValues }, true)
  else (p, false)

/-! ## FileLoader.download (lines 303-364) — synchronous state machine

`download` runs synchronously up to its return: it checks the
PendingRequest table (`pending_tasks[file.id]`, line 317), then the
fresh-cache-hit branch (lines 322-328), then the offline branch
(lines 330-334), and otherwise builds the fetch chain, installs the
PendingRequest entry, and calls `dispatchNextTask` (lines 336-363).
The chain's intermediate promises are represented by the single pending
`waitingForDownload` promise that the caller receives (its temporal
behaviour is modelled separately below); `spawnHTTPClient` runs in the
deferred continuation of the admitted ticket, so one issued ticket
corresponds to exactly one transport operation — `ticketsIssued` records
the key of each ticket created on the fetch path. -/

/-- Values carried by the promises `download` settles: a cache entry
(`[file]`) on fulfilment, a message string (`["Network offline"]`) on the
offline rejection. -/
inductive DVal
  | file (f : FileRec)
  | str (s : String)
  deriving Repr, DecidableEq

/-- The `File.idFromUrl` (lines 257-262): `Ti.Utils.md5HexDigest(url)` — an
external collaborator, modelled as an injective deterministic key
derivation (the identity on strings). -/
def idFromUrl (url : String) : String := url

/-- Lookup in the `pending_tasks` table (line 317). -/
def lookupPending (ps : List (String × Nat)) (id : String) : Option Nat :=
  (ps.find? (fun kv => kv.1 = id)).map (·.2)

structure LoaderState where
  metadata : Meta
  fs : List String
  pending : List (String × Nat)
  q : QState
  online : Bool
  now : Int
  proms : List (PinkyProm DVal)
  ticketsIssued : List String
  deriving DecidableEq

/-- Allocate a fresh pinkySwear promise in the store. -/
def LoaderState.newProm (st : LoaderState) (p : PinkyProm DVal) : Nat × LoaderState :=
  (st.proms.length, { st with proms := st.proms ++ [p] })

/-- The `FileLoader.download` (lines 303-364), bare-locator form (the
`{onload, onerror, ondatastream}` callback sugar wraps the returned
promise through one extra `then`, line 312, and is layered outside this
function).  Returns the promise handed to the caller and the new state. -/
def download (st : LoaderState) (url : String) : Nat × LoaderState :=
  let fid := idFromUrl url
  let file := mkFile st.metadata st.fs fid
  match lookupPending st.pending fid with
  | some p => (p, st)
  | none =>
    if file.is_cached && !file.expiredCheck st.now then
      let (f2, meta2) := (file.updateLastUsedAt st.now).save st.metadata
      { st with metadata := meta2 }.newProm { state := some true, values := [DVal.file f2] }
    else if !st.online then
      st.newProm { state := some false, values := [DVal.str "Network offline"] }
    else
      let (_ticket, q1) := requestDispatch st.q
      let (wfd, st1) := ({ st with q := q1 } : LoaderState).newProm { state := none, values := [] }
      let st2 := { st1 with
        pending := (fid, wfd) :: st1.pending,
        ticketsIssued := st1.ticketsIssued ++ [fid] }
      (wfd, { st2 with q := dispatchNextTask MAX_ASYNC_TASKS st2.q })

/-- The `n` repeated `download` calls for the same locator (the concurrent
arrival pattern of the dedup scenario: all calls in one turn, before any
settlement).  Returns the promises handed out, in call order. -/
def downloadN (st : LoaderState) (url : String) : Nat → List Nat × LoaderState
  | 0 => ([], st)
  | n + 1 =>
      let (p, st1) := download st url
      let (ps, st2) := downloadN st1 url n
      (p :: ps, st2)

/-! ## pinkySwear `callCallbacks` (lines 410-430)

The body of `set.then`'s continuation: pick the matching handler for the
source's state, invoke it on the source's `values`, and drive the derived
promise (`newPromise`): a thrown exception is caught and turned into a
rejection of the derived promise with exactly the thrown value (the
`catch` clause, lines 427-429, so nothing escapes to the scheduler that
invoked `callCallbacks`); a returned value exposing a `then` capability is
adopted; any other return fulfils with `[r]`; a missing handler passes
`state`/`values` through unchanged. -/

/-- Outcome of invoking a handler `f.apply(null, values)`: a plain return
value, a returned thenable (identified by its promise id), or a thrown
exception. -/
inductive HRes (V : Type)
  | ret (v : V)
  | thenable (p : Nat)
  | thrown (e : V)
  deriving Repr, DecidableEq

/-- The action `callCallbacks` performs on the derived promise
`newPromise`. -/
inductive NPAction (V : Type)
  | settle (b : Bool) (vs : List V)
  | adopt (p : Nat)
  deriving Repr, DecidableEq

/-- The `callCallbacks` (lines 410-430).  `onFulfilled`/`onRejected` are
`some f` when the corresponding argument passes the `isFunction` test and
`none` otherwise (e.g. the literal `0` passed by `set.fail`). -/
def callCallbacks {V : Type} (state : Bool) (values : List V)
    (onFulfilled onRejected : Option (List V → HRes V)) : NPAction V :=
  match (if state then onFulfilled else onRejected) with
  | some f =>
      match f values with
      | HRes.thrown e => NPAction.settle false [e]
      | HRes.thenable p => NPAction.adopt p
      | HRes.ret r => NPAction.settle true [r]
  | none => NPAction.settle state values

/-! ## Scheduling machine for one pinkySwear promise (lines 387, 395-404,
431-434)

`defer(cb)` is `setTimeout(cb, 0)` (line 387): `cb` runs in a strictly
later turn of the host event loop.  The machine makes turns explicit:
`now` counts turns, `tasks` is the host timer queue ((due turn, task),
FIFO, due = scheduling turn + 1), and a `tick` advances the clock and runs
every due task in order.  `attach` is the scheduling part of `set.then`
(lines 431-434): a continuation attached while pending is pushed on the
`deferred` array, one attached after settlement is deferred directly.
`settle` is `set` (lines 395-404): on first settlement it defers one flush
that invokes the whole `deferred` array.  `invocations` records
(continuation id, turn it ran). -/

inductive STask
  | flush
  | runCont (c : Nat)
  deriving Repr, DecidableEq

structure SM where
  now : Nat
  state : Option Bool
  settledAt : Option Nat
  attachedAt : List Nat
  deferredQ : List Nat
  tasks : List (Nat × STask)
  invocations : List (Nat × Nat)
  deriving Repr, DecidableEq

def SM.init : SM :=
  { now := 0, state := none, settledAt := none, attachedAt := [],
    deferredQ := [], tasks := [], invocations := [] }

/-- The scheduling part of `set.then` (lines 431-434): allocate the next
continuation id, record its attachment turn; while pending, push it on
`deferred`; when already settled, `defer(callCallbacks)`. -/
def SM.attach (m : SM) : SM :=
  let c := m.attachedAt.length
  if m.state = none then
    { m with attachedAt := m.attachedAt ++ [m.now], deferredQ := m.deferredQ ++ [c] }
  else
    { m with attachedAt := m.attachedAt ++ [m.now],
             tasks := m.tasks ++ [(m.now + 1, STask.runCont c)] }

/-- The `set` (lines 395-404): on first settlement, record the state and defer
the flush of the `deferred` array; otherwise a no-op. -/
def SM.settle (m : SM) (b : Bool) : SM :=
  if m.state = none then
    { m with state := some b, settledAt := some m.now,
             tasks := m.tasks ++ [(m.now + 1, STask.flush)] }
  else m

def SM.runTask (m : SM) (t : STask) : SM :=
  match t with
  | STask.flush =>
      { m with invocations := m.invocations ++ m.deferredQ.map (fun c => (c, m.now)),
               deferredQ := [] }
  | STask.runCont c => { m with invocations := m.invocations ++ [(c, m.now)] }

def SM.runTasks (m : SM) (ts : List (Nat × STask)) : SM :=
  match ts with
  | [] => m
  | (_, t) :: rest => SM.runTasks (m.runTask t) rest

/-- One turn of the host event loop: advance the clock and run every due
timer task in FIFO order. -/
def SM.tick (m : SM) : SM :=
  let m1 : SM := { m with now := m.now + 1 }
  let due := m1.tasks.filter (fun dt => dt.1 ≤ m1.now)
  let rest := m1.tasks.filter (fun dt => ¬ dt.1 ≤ m1.now)
  SM.runTasks { m1 with tasks := rest } due

inductive SOp
  | attach
  | settle (b : Bool)
  | tick
  deriving Repr, DecidableEq

def SM.step (m : SM) : SOp → SM
  | SOp.attach => m.attach
  | SOp.settle b => m.settle b
  | SOp.tick => m.tick

/-- Run a sequence of attach/settle/tick events from the initial state. -/
def SM.run (ops : List SOp) : SM :=
  ops.foldl SM.step SM.init

/-- Mid-turn invariant of the scheduling machine, while due tasks are being
processed: every attachment and the settlement lie in strictly earlier
turns, continuation ids are in range, and every past invocation happened
strictly after the matching attachment and after settlement. -/
def SM.Mid (m : SM) : Prop :=
  (∀ ta ∈ m.attachedAt, ta < m.now) ∧
  (∀ ts, m.settledAt = some ts → ts < m.now) ∧
  (∀ c ∈ m.deferredQ, c < m.attachedAt.length) ∧
  (∀ c t, (c, t) ∈ m.invocations → c < m.attachedAt.length) ∧
  (∀ c t, (c, t) ∈ m.invocations →
     (∀ ta, m.attachedAt[c]? = some ta → ta < t) ∧
     (∀ ts, m.settledAt = some ts → ts < t))

/-- Between-turns invariant of the scheduling machine: clocks are
monotone, nothing is scheduled or invoked before settlement, continuation
ids are in range, and every invocation happened strictly after the
matching attachment and after settlement. -/
def SM.Inv (m : SM) : Prop :=
  (∀ ta ∈ m.attachedAt, ta ≤ m.now) ∧
  (∀ ts, m.settledAt = some ts → ts ≤ m.now) ∧
  (m.state = none → m.invocations = [] ∧ m.tasks = []) ∧
  (∀ c ∈ m.deferredQ, c < m.attachedAt.length) ∧
  (∀ d c, (d, STask.runCont c) ∈ m.tasks → c < m.attachedAt.length) ∧
  (∀ c t, (c, t) ∈ m.invocations → c < m.attachedAt.length) ∧
  (∀ c t, (c, t) ∈ m.invocations →
     (∀ ta, m.attachedAt[c]? = some ta → ta < t) ∧
     (∀ ts, m.settledAt = some ts → ts < t))

/-! ## The `fin` hook of the download chain (lines 353-357, 461)

`waitingForDownload` is the last promise of the chain built at
lines 336-357; `fin(func)` is `set.then(func, func); return set`
(line 461), so the cleanup function (delete the PendingRequest entry, clear
`file.pending`, call `dispatchNextTask`; lines 353-357) is the *first*
continuation in that promise's `deferred` array, and the promise the caller
receives is that same promise.  The machine below is the skeleton of this
situation with explicit turns (the same `defer`-based scheduling as `SM`):
`pendingEntry` models `pending_tasks[file.id]` being present,
`dispatchCalls` counts the `dispatchNextTask()` invocations made by the
cleanup, and `log` records settlement, cleanup and caller-continuation
events with their turns. -/

inductive FinCont
  | cleanup
  | caller (cid : Nat)
  deriving Repr, DecidableEq

inductive FinEvent
  | settled (b : Bool)
  | cleanupRun
  | callerRun (cid : Nat)
  deriving Repr, DecidableEq

inductive FinTask
  | flush
  | runCont (c : FinCont)
  deriving Repr, DecidableEq

structure FinM where
  now : Nat
  state : Option Bool
  deferredQ : List FinCont
  tasks : List (Nat × FinTask)
  pendingEntry : Bool
  dispatchCalls : Nat
  log : List (Nat × FinEvent)
  deriving Repr, DecidableEq

/-- The state right after `download` returns on the fetch path
(lines 336-364): the caller's promise is pending, the `fin` cleanup
continuation is the first entry of its `deferred` array (attached at
line 353 during chain construction), and `pending_tasks[file.id]` is
installed (line 360). -/
def FinM.init : FinM :=
  { now := 0, state := none, deferredQ := [FinCont.cleanup], tasks := [],
    pendingEntry := true, dispatchCalls := 0, log := [] }

/-- Invoke one continuation of the chain promise: the `fin` cleanup
(lines 353-357) removes the PendingRequest entry and calls
`dispatchNextTask`; a caller continuation just runs. -/
def FinM.invokeCont (m : FinM) (c : FinCont) : FinM :=
  match c with
  | FinCont.cleanup =>
      { m with pendingEntry := false, dispatchCalls := m.dispatchCalls + 1,
               log := m.log ++ [(m.now, FinEvent.cleanupRun)] }
  | FinCont.caller cid => { m with log := m.log ++ [(m.now, FinEvent.callerRun cid)] }

def FinM.invokeConts (m : FinM) (cs : List FinCont) : FinM :=
  match cs with
  | [] => m
  | c :: rest => FinM.invokeConts (m.invokeCont c) rest

/-- A caller attaches a continuation (`then` / the callback sugar of
line 312) to the returned promise: pushed on `deferred` while pending,
deferred directly once settled. -/
def FinM.attachCaller (m : FinM) (cid : Nat) : FinM :=
  if m.state = none then
    { m with deferredQ := m.deferredQ ++ [FinCont.caller cid] }
  else
    { m with tasks := m.tasks ++ [(m.now + 1, FinTask.runCont (FinCont.caller cid))] }

/-- Settlement of the chain promise (fulfilment of the write step or
rejection anywhere in the chain): `set` records the state and defers the
flush of the `deferred` array. -/
def FinM.settle (m : FinM) (b : Bool) : FinM :=
  if m.state = none then
    { m with state := some b, log := m.log ++ [(m.now, FinEvent.settled b)],
             tasks := m.tasks ++ [(m.now + 1, FinTask.flush)] }
  else m

def FinM.runTask (m : FinM) (t : FinTask) : FinM :=
  match t with
  | FinTask.flush => FinM.invokeConts { m with deferredQ := [] } m.deferredQ
  | FinTask.runCont c => m.invokeCont c

def FinM.runTasks (m : FinM) (ts : List (Nat × FinTask)) : FinM :=
  match ts with
  | [] => m
  | (_, t) :: rest => FinM.runTasks (m.runTask t) rest

def FinM.tick (m : FinM) : FinM :=
  let m1 : FinM := { m with now := m.now + 1 }
  let due := m1.tasks.filter (fun dt => dt.1 ≤ m1.now)
  let rest := m1.tasks.filter (fun dt => ¬ dt.1 ≤ m1.now)
  FinM.runTasks { m1 with tasks := rest } due

inductive FinOp
  | attachCaller (cid : Nat)
  | settle (b : Bool)
  | tick
  deriving Repr, DecidableEq

def FinM.step (m : FinM) : FinOp → FinM
  | FinOp.attachCaller cid => m.attachCaller cid
  | FinOp.settle b => m.settle b
  | FinOp.tick => m.tick

def FinM.run (ops : List FinOp) : FinM :=
  ops.foldl FinM.step FinM.init

/-! ## Progress-event routing (lines 292-301, 406-409, 440-455)

`set.then` overrides the derived promise's `progress` and `notify` so that
both delegate to the *source* promise (lines 408-409); a root promise
(created by `pinkySwear()` directly) keeps its own `progress_fns` list
(lines 451-455) and `notify` fans an event out to that list (lines
440-446).  During thenable adoption (lines 415-420) a forwarder
`function(value){newPromise.notify(value)}` is registered as a progress
subscriber of the inner promise.  `spawnHTTPClient` wires the transport's
`ondatastream` to `waitForHttp.notify` (line 296).  `registerProgress`
follows the `progress` delegation chain to the root and appends the
subscriber there; `notifyDeliver` follows the `notify` delegation chain to
the root and collects, in order, the user subscribers an event reaches
(descending through adoption forwarders). -/

inductive PSub
  | user (uid : Nat)
  | fwd (target : Nat)
  deriving Repr, DecidableEq

structure ProgProm where
  progressDelegate : Option Nat
  notifyDelegate : Option Nat
  progress_fns : List PSub
  deriving Repr, DecidableEq

def ProgStore := List ProgProm

instance : DecidableEq ProgStore := by unfold ProgStore; exact inferInstance

/-- The `set.progress` (lines 451-455) combined with the overriding of
`newPromise.progress` in `set.then` (line 408): registering a progress
subscriber on a derived promise delegates to its source, so the
subscriber is appended to the `progress_fns` of the root promise of the
chain. -/
def registerProgress (fuel : Nat) (store : ProgStore) (p : Nat) (s : PSub) : ProgStore :=
  match fuel with
  | 0 => store
  | fuel + 1 =>
      match store.get? p with
      | none => store
      | some pr =>
          match pr.progressDelegate with
          | some q => registerProgress fuel store q s
          | none => store.set p { pr with progress_fns := pr.progress_fns ++ [s] }

mutual

/-- The `set.notify` (lines 440-446) combined with the overriding of
`newPromise.notify` in `set.then` (line 409): notifying a derived promise
delegates to its source; at the root the event is delivered to every
registered subscriber in order. -/
def notifyDeliver (fuel : Nat) (store : ProgStore) (p : Nat) : List Nat :=
  match fuel with
  | 0 => []
  | fuel + 1 =>
      match store.get? p with
      | none => []
      | some pr =>
          match pr.notifyDelegate with
          | some q => notifyDeliver fuel store q
          | none => deliverSubs fuel store pr.progress_fns
termination_by (fuel, 0)

/-- Deliver an event to a subscriber list: a user function receives it; an
adoption forwarder (lines 415-420) re-notifies its target promise. -/
def deliverSubs (fuel : Nat) (store : ProgStore) (subs : List PSub) : List Nat :=
  match subs with
  | [] => []
  | PSub.user uid :: rest => uid :: deliverSubs fuel store rest
  | PSub.fwd t :: rest => notifyDeliver fuel store t ++ deliverSubs fuel store rest
termination_by (fuel, subs.length + 1)

end

/-- The promise graph of one fetch for a key, as built by `download`
(lines 336-357) and the admitted ticket's continuation (lines 337-341):
index 0 is the dispatch ticket (root, `requestDispatch`), 1-4 the chain
promises derived by `.then`/`.get`/`.get`/`.then`, 5 the discarded
derived promise of `fin`, 6 the inner `waitForHttp` promise (root) whose
progress list holds the adoption forwarder towards promise 1, 7 the
derived promise `attachCallbacks` hands to a joiner using the callback
sugar (line 312).  Index 4 is `waitingForDownload`, the promise stored in
`pending_tasks` and returned to callers.  `fns` parametrises the root
ticket's accumulated subscriber list. -/
def chainStore (fns : List PSub) : ProgStore :=
  [ { progressDelegate := none, notifyDelegate := none, progress_fns := fns },
    { progressDelegate := some 0, notifyDelegate := some 0, progress_fns := [] },
    { progressDelegate := some 1, notifyDelegate := some 1, progress_fns := [] },
    { progressDelegate := some 2, notifyDelegate := some 2, progress_fns := [] },
    { progressDelegate := some 3, notifyDelegate := some 3, progress_fns := [] },
    { progressDelegate := some 4, notifyDelegate := some 4, progress_fns := [] },
    { progressDelegate := none, notifyDelegate := none, progress_fns := [PSub.fwd 1] },
    { progressDelegate := some 4, notifyDelegate := some 4, progress_fns := [] } ]

/-- One joined caller's progress registration: via `.progress(fn)` or the
third argument of `.then` on the returned promise 4 itself (`viaWrapper =
false`), or on the callback-sugar wrapper promise 7 (`viaWrapper =
true`). -/
def registerJoiner (store : ProgStore) (reg : Bool × Nat) : ProgStore :=
  registerProgress 16 store (if reg.1 then 7 else 4) (PSub.user reg.2)

/-- Register the progress subscriptions of a list of joined callers, in
arrival order. -/
def registerJoiners (store : ProgStore) (regs : List (Bool × Nat)) : ProgStore :=
  match regs with
  | [] => store
  | r :: rest => registerJoiners (registerJoiner store r) rest

/-- A transport `ondatastream` event: `spawnHTTPClient` wires it to
`waitForHttp.notify` (line 296), promise 6 of the graph. -/
def datastreamDeliveries (store : ProgStore) : List Nat :=
  notifyDeliver 16 store 6

/-! ## Concrete states used to exercise the theorems -/

/-- Dispatch-queue state with two waiting tickets (0 and 1), one running
operation (ticket 2), and `MAX_ASYNC_TASKS` taken as 2. -/
def c3state : QState := { dispatch_queue := [0, 1], running := [2], nextId := 3 }

/-- Dispatch-queue state with one waiting ticket 5 and one running
operation 7. -/
def c3stateW : QState := { dispatch_queue := [5], running := [7], nextId := 9 }

/-- Loader state with an in-flight fetch for key "u" whose chain promise
has id 3. -/
def c1stateW : LoaderState :=
  { metadata := [], fs := [], pending := [("u", 3)], q := QState.init,
    online := true, now := 0, proms := [], ticketsIssued := [] }

/-- Loader state holding a fresh cached entry for key "k": a metadata
record exists, the bytes exist on disk, and only 5 ms have elapsed since
`last_used_at`. -/
def c8stateW : LoaderState :=
  { metadata := [("k", { last_used_at := 5, md5 := some "h" })], fs := ["k"],
    pending := [], q := QState.init, online := true, now := 10, proms := [],
    ticketsIssued := [] }

/-- Event sequence for the scheduling machine: attach a continuation and
settle the promise in turn 0, then let the event loop run. -/
def c6demo : List SOp := [SOp.attach, SOp.settle true, SOp.tick]

/-! ## Theorems -/

theorem Meta.find_insert (m : Meta) (id : String) (rec : MetaRec) :
    (m.insert id rec).find id = some rec := by
  simp [Meta.find, Meta.insert, List.find?]

/-- C10: `expired(true)` on any cache entry — also one that was never
downloaded and has no stored bytes — invokes `save()`, which sets
`is_cached` to `true` and persists a metadata record for the key with
`last_used_at = 0`; hard invalidation therefore leaves the entry marked
cached in memory and registered in the metadata store. -/
theorem c10_expired_invalidate_saves (f : FileRec) (meta : Meta) (now : Int) :
    ((f.expired meta now true).2.1).is_cached = true ∧
    ((f.expired meta now true).2.2).find f.id =
      some { last_used_at := 0, md5 := f.md5 } := by
  constructor
  · simp [FileRec.expired, FileRec.save]
  · simp [FileRec.expired, FileRec.save]
    exact Meta.find_insert meta f.id { last_used_at := 0, md5 := f.md5 }

/-- C5: `set` is single-assignment: a second settle call on an
already-settled promise is a no-op — state and values are unchanged and
no continuation flush is scheduled — so the transition pending→fulfilled
or pending→rejected happens at most once and the stored values are
immutable after settlement. -/
theorem c5_settle_idempotent {V : Type} (p : PinkyProm V) (s b : Bool)
    (vs : List V) (h : p.state = some s) :
    pinkySet p b vs = (p, false) := by
  simp [pinkySet, h]

theorem c5_settle_idempotent_witness :
    pinkySet ({ state := some true, values := [1] } : PinkyProm Nat) false [2] =
      ({ state := some true, values := [1] }, false) :=
  c5_settle_idempotent { state := some true, values := [1] } true false [2] rfl

/-- C9: if the handler `callCallbacks` invokes throws synchronously, the
derived promise is rejected with exactly the thrown value (the `catch`
clause of lines 427-429); `callCallbacks` itself returns normally, so the
exception is not propagated to the caller of the scheduling turn. -/
theorem c9_handler_throw_rejects {V : Type} (state : Bool) (values : List V)
    (onFulfilled onRejected : Option (List V → HRes V))
    (f : List V → HRes V) (e : V)
    (hf : (if state then onFulfilled else onRejected) = some f)
    (he : f values = HRes.thrown e) :
    callCallbacks state values onFulfilled onRejected = NPAction.settle false [e] := by
  simp [callCallbacks, hf, he]

theorem c9_handler_throw_rejects_witness :
    callCallbacks true [0] (some fun _ => HRes.thrown 7) none =
      NPAction.settle false [(7 : Nat)] :=
  c9_handler_throw_rejects true [0] (some fun _ => HRes.thrown 7) none
    (fun _ => HRes.thrown 7) 7 rfl rfl

/-- C2 fails on the code: `dispatchNextTask` admits a ticket whenever the
*waiting-queue length* is below `MAX_ASYNC_TASKS` (line 283) and nothing
tracks the running count, so eleven `download` calls for distinct
uncached keys arriving in one turn are all admitted immediately: the
number of concurrently running fetch operations reaches 11, exceeding the
default limit of 10.  (The header comment, lines 107, documents
`cache_requests` as "The number of simultaneous network requests
allowed", so the code contradicts its own documentation.) -/
theorem c2_running_exceeds_limit :
    (newTasks MAX_ASYNC_TASKS 11 QState.init).running.length = 11 ∧
    ¬ ((newTasks MAX_ASYNC_TASKS 11 QState.init).running.length ≤ MAX_ASYNC_TASKS) := by
  decide

/-- C3 as stated is false: at a state with two waiting tickets, one
running operation and limit 2, the completion of the running operation
admits nothing — `dispatchNextTask` tests `dispatch_queue.length <
MAX_ASYNC_TASKS` (line 283), not the running count — although the queue
is non-empty and the running count (after the release) is strictly below
the limit. -/
theorem c3_counterexample :
    c3state.dispatch_queue ≠ [] ∧
    (c3state.running.erase 2).length < 2 ∧
    completeTask 2 c3state 2 =
      { dispatch_queue := [0, 1], running := [], nextId := 3 } := by
  decide

/-- C3 amended: when a fetch operation completes, `dispatchNextTask` runs;
if the waiting queue is empty, no action is taken; if it is non-empty,
the FIFO front ticket is admitted exactly when the *queue length* is
strictly below `MAX_ASYNC_TASKS` (the code consults the queue length, not
the running count). -/
theorem c3_release_admission (limit : Nat) (q : QState) (t : Nat) :
    (q.dispatch_queue = [] →
       completeTask limit q t = { q with running := q.running.erase t }) ∧
    (∀ u rest, q.dispatch_queue = u :: rest →
       (q.dispatch_queue.length < limit →
          completeTask limit q t =
            { dispatch_queue := rest, running := q.running.erase t ++ [u],
              nextId := q.nextId }) ∧
       (¬ q.dispatch_queue.length < limit →
          completeTask limit q t = { q with running := q.running.erase t })) := by
  refine ⟨?_, ?_⟩
  · intro h
    simp [completeTask, dispatchNextTask, h]
  · intro u rest h
    constructor
    · intro hl
      rw [h] at hl
      simp at hl
      simp [completeTask, dispatchNextTask, h, hl]
    · intro hl
      rw [h] at hl
      simp at hl
      simp [completeTask, dispatchNextTask, h, hl]

theorem c3_release_admission_witness :
    completeTask 10 c3stateW 7 = { dispatch_queue := [], running := [5], nextId := 9 } := by
  have h := ((c3_release_admission 10 c3stateW 7).2 5 [] (by decide)).1 (by decide)
  simpa [c3stateW] using h

/-- C1: while a PendingRequest entry for a key exists, `download` for that
key returns the very promise stored in the table and changes nothing — no
new promise, no queue interaction, no transport ticket (first conjunct;
the callback sugar of line 312 merely layers one `then` on the returned
promise).  Consequently (second conjunct) when a fetch is required, the
first call installs the entry and issues exactly one transport ticket,
and every one of the `n` further calls arriving while it is in flight
gets the same promise back with the state unchanged: `n + 1` concurrent
`download(k)` calls trigger exactly one network operation and all callers
observe the same eventual outcome. -/
theorem c1_download_dedup :
    (∀ (st : LoaderState) (url : String) (p : Nat),
        lookupPending st.pending (idFromUrl url) = some p →
        download st url = (p, st)) ∧
    (∀ (st : LoaderState) (url : String),
        lookupPending st.pending (idFromUrl url) = none →
        ((mkFile st.metadata st.fs (idFromUrl url)).is_cached &&
          !(mkFile st.metadata st.fs (idFromUrl url)).expiredCheck st.now) = false →
        st.online = true →
        (download st url).2.ticketsIssued = st.ticketsIssued ++ [idFromUrl url] ∧
        lookupPending (download st url).2.pending (idFromUrl url) =
          some (download st url).1 ∧
        ∀ n, downloadN (download st url).2 url n =
          (List.replicate n (download st url).1, (download st url).2)) := by
  have hA : ∀ (st : LoaderState) (url : String) (p : Nat),
      lookupPending st.pending (idFromUrl url) = some p →
      download st url = (p, st) := by
    intro st url p h
    simp [download, h]
  refine ⟨hA, ?_⟩
  intro st url hpend hc ho
  have hdl : download st url =
      (st.proms.length,
       { metadata := st.metadata, fs := st.fs,
         pending := (idFromUrl url, st.proms.length) :: st.pending,
         q := dispatchNextTask MAX_ASYNC_TASKS
           { dispatch_queue := st.q.dispatch_queue ++ [st.q.nextId],
             running := st.q.running, nextId := st.q.nextId + 1 },
         online := st.online, now := st.now,
         proms := st.proms ++ [{ state := none, values := [] }],
         ticketsIssued := st.ticketsIssued ++ [idFromUrl url] }) := by
    simp [download, hpend, hc, ho, requestDispatch, LoaderState.newProm]
  have hlook : lookupPending
      ((idFromUrl url, st.proms.length) :: st.pending) (idFromUrl url) =
      some st.proms.length := by
    simp [lookupPending, List.find?]
  have hiter : ∀ (m : LoaderState) (p : Nat),
      lookupPending m.pending (idFromUrl url) = some p →
      ∀ n, downloadN m url n = (List.replicate n p, m) := by
    intro m p hm n
    induction n with
    | zero => simp [downloadN]
    | succ k ih => simp [downloadN, hA m url p hm, ih, List.replicate_succ]
  rw [hdl]
  exact ⟨rfl, hlook, fun n => hiter _ _ hlook n⟩

theorem c1_download_dedup_witness :
    download c1stateW "u" = (3, c1stateW) :=
  c1_download_dedup.1 c1stateW "u" 3 rfl

/-- C8: when no fetch for the key is in flight and the entry is cached and
not expired, `download` updates the entry's `last_used_at` to the current
time, persists it (`updateLastUsedAt().save()`, line 323), and returns a
freshly created, already-fulfilled promise wrapping the entry — the
dispatch queue, the PendingRequest table and the issued transport tickets
are untouched. -/
theorem c8_fresh_cache_hit (st : LoaderState) (url : String)
    (hpend : lookupPending st.pending (idFromUrl url) = none)
    (hcached : (mkFile st.metadata st.fs (idFromUrl url)).is_cached = true)
    (hfresh : (mkFile st.metadata st.fs (idFromUrl url)).expiredCheck st.now = false) :
    download st url =
      (st.proms.length,
       { metadata :=
           (((mkFile st.metadata st.fs (idFromUrl url)).updateLastUsedAt st.now).save
             st.metadata).2,
         fs := st.fs, pending := st.pending, q := st.q, online := st.online,
         now := st.now,
         proms := st.proms ++
           [{ state := some true,
              values := [DVal.file
                (((mkFile st.metadata st.fs (idFromUrl url)).updateLastUsedAt
                  st.now).save st.metadata).1] }],
         ticketsIssued := st.ticketsIssued }) ∧
    (((mkFile st.metadata st.fs (idFromUrl url)).updateLastUsedAt st.now).save
      st.metadata).1.last_used_at = st.now ∧
    (((mkFile st.metadata st.fs (idFromUrl url)).updateLastUsedAt st.now).save
      st.metadata).1.is_cached = true := by
  refine ⟨?_, ?_, ?_⟩
  · simp [download, hpend, hcached, hfresh, LoaderState.newProm]
  · simp [FileRec.save, FileRec.updateLastUsedAt]
  · simp [FileRec.save]

theorem c8_fresh_cache_hit_witness :
    download c8stateW "k" =
      (0, { metadata := [("k", { last_used_at := 10, md5 := some "h" })],
            fs := ["k"], pending := [], q := QState.init, online := true,
            now := 10,
            proms := [{ state := some true,
                        values := [DVal.file
                          { id := "k", is_cached := true, last_used_at := 10,
                            md5 := some "h" }] }],
            ticketsIssued := [] }) := by
  have h := (c8_fresh_cache_hit c8stateW "k" rfl (by decide) (by decide)).1
  simpa [c8stateW, mkFile, Meta.find, List.find?, fileExists,
    FileRec.updateLastUsedAt, FileRec.save, Meta.insert, LoaderState.newProm] using h

/-- C4 as stated is false: the `fin` cleanup is a *continuation* of the
chain promise, so it runs in a deferred turn; at the moment the caller's
promise settles (here: rejects), the PendingRequest entry is still
present and `dispatchNextTask` has not been called — the cleanup does not
run before the caller's Future settles. -/
theorem c4_counterexample :
    (FinM.run [FinOp.settle false]).state = some false ∧
    (FinM.run [FinOp.settle false]).pendingEntry = true ∧
    (FinM.run [FinOp.settle false]).dispatchCalls = 0 := by
  decide

/-- C4 amended: for every download through the fetch path, whether the
chain settles fulfilled or rejected, the `fin` hook removes the
PendingRequest entry and calls `dispatchNextTask` unconditionally — in
the turn *after* the caller's Future settles, and before any
caller-attached continuation is invoked — so a rejected fetch never
leaves the key permanently blocked and a subsequent `download(k)` can
proceed. -/
theorem c4_cleanup_after_settlement (b : Bool) (cid : Nat) :
    FinM.run [FinOp.attachCaller cid, FinOp.settle b, FinOp.tick] =
      { now := 1, state := some b, deferredQ := [], tasks := [],
        pendingEntry := false, dispatchCalls := 1,
        log := [(0, FinEvent.settled b), (1, FinEvent.cleanupRun),
                (1, FinEvent.callerRun cid)] } := by
  cases b <;> rfl

theorem registerJoiner_chain (fns : List PSub) (r : Bool × Nat) :
    registerJoiner (chainStore fns) r = chainStore (fns ++ [PSub.user r.2]) := by
  rcases r with ⟨b, u⟩
  cases b <;> rfl

theorem registerJoiners_chain (regs : List (Bool × Nat)) (fns : List PSub) :
    registerJoiners (chainStore fns) regs =
      chainStore (fns ++ regs.map (fun r => PSub.user r.2)) := by
  induction regs generalizing fns with
  | nil => simp [registerJoiners]
  | cons r rest ih =>
      simp [registerJoiners, registerJoiner_chain, ih]

theorem deliverSubs_users (fuel : Nat) (store : ProgStore) (uids : List Nat) :
    deliverSubs fuel store (uids.map PSub.user) = uids := by
  induction uids with
  | nil => simp [deliverSubs]
  | cons u rest ih => simp [deliverSubs, ih]

theorem datastream_chain (fns : List PSub) :
    datastreamDeliveries (chainStore fns) = deliverSubs 13 (chainStore fns) fns := by
  simp [datastreamDeliveries, notifyDeliver, deliverSubs, chainStore]

/-- C7: a transport `ondatastream` event for an in-flight key (delivered
through `waitForHttp.notify`, line 296, the adoption forwarder of
lines 415-420 and the `notify`/`progress` delegation of lines 408-409,
440-455) reaches the progress subscription of *every* caller that joined
the key's fetch, in registration order — whether the subscription was made
on the chain promise returned for a join (`.progress(fn)` or the third
argument of `.then`) or on the callback-sugar wrapper promise, and
regardless of how many callers joined before or during the flight — not
only the first caller's. -/
theorem c7_progress_fanout (regs : List (Bool × Nat)) :
    datastreamDeliveries (registerJoiners (chainStore []) regs) =
      regs.map (fun r => r.2) := by
  rw [registerJoiners_chain, datastream_chain]
  simp only [List.nil_append]
  have h : regs.map (fun r => PSub.user r.2) =
      (regs.map (fun r => r.2)).map PSub.user := by
    simp [List.map_map]
  rw [h, deliverSubs_users]

theorem SM.runTask_fields (m : SM) (t : STask) :
    (m.runTask t).now = m.now ∧ (m.runTask t).state = m.state ∧
    (m.runTask t).settledAt = m.settledAt ∧
    (m.runTask t).attachedAt = m.attachedAt ∧
    (m.runTask t).tasks = m.tasks := by
  cases t <;> simp [SM.runTask]

theorem SM.runTasks_fields (m : SM) (ts : List (Nat × STask)) :
    (SM.runTasks m ts).now = m.now ∧ (SM.runTasks m ts).state = m.state ∧
    (SM.runTasks m ts).settledAt = m.settledAt ∧
    (SM.runTasks m ts).attachedAt = m.attachedAt ∧
    (SM.runTasks m ts).tasks = m.tasks := by
  induction ts generalizing m with
  | nil => simp [SM.runTasks]
  | cons dt rest ih =>
      rcases dt with ⟨d, t⟩
      obtain ⟨h1, h2, h3, h4, h5⟩ := SM.runTask_fields m t
      obtain ⟨g1, g2, g3, g4, g5⟩ := ih (m.runTask t)
      exact ⟨g1.trans h1, g2.trans h2, g3.trans h3, g4.trans h4, g5.trans h5⟩

theorem SM.Mid.runTask (m : SM) (t : STask) (hm : SM.Mid m)
    (hc : ∀ c, t = STask.runCont c → c < m.attachedAt.length) :
    SM.Mid (m.runTask t) := by
  obtain ⟨h1, h2, h3, h4, h5⟩ := hm
  cases t with
  | flush =>
      refine ⟨h1, h2, ?_, ?_, ?_⟩
      · intro c hcq
        simp [SM.runTask] at hcq
      · intro c tt hct
        simp only [SM.runTask] at hct
        rw [List.mem_append] at hct
        rcases hct with hold | hnew
        · exact h4 c tt hold
        · rw [List.mem_map] at hnew
          obtain ⟨c', hc', heq⟩ := hnew
          cases heq
          exact h3 _ hc'
      · intro c tt hct
        simp only [SM.runTask] at hct
        rw [List.mem_append] at hct
        rcases hct with hold | hnew
        · exact h5 c tt hold
        · rw [List.mem_map] at hnew
          obtain ⟨c', hc', heq⟩ := hnew
          cases heq
          exact ⟨fun ta hta => h1 ta (List.getElem?_mem hta), fun ts hts => h2 ts hts⟩
  | runCont c0 =>
      refine ⟨h1, h2, h3, ?_, ?_⟩
      · intro c tt hct
        simp only [SM.runTask] at hct
        rw [List.mem_append] at hct
        rcases hct with hold | hnew
        · exact h4 c tt hold
        · rw [List.mem_singleton] at hnew
          cases hnew
          exact hc c0 rfl
      · intro c tt hct
        simp only [SM.runTask] at hct
        rw [List.mem_append] at hct
        rcases hct with hold | hnew
        · exact h5 c tt hold
        · rw [List.mem_singleton] at hnew
          cases hnew
          exact ⟨fun ta hta => h1 ta (List.getElem?_mem hta), fun ts hts => h2 ts hts⟩

theorem SM.Mid.runTasks (ts : List (Nat × STask)) (m : SM) (hm : SM.Mid m)
    (hts : ∀ d c, (d, STask.runCont c) ∈ ts → c < m.attachedAt.length) :
    SM.Mid (SM.runTasks m ts) := by
  induction ts generalizing m with
  | nil => exact hm
  | cons dt rest ih =>
      rcases dt with ⟨d, t⟩
      apply ih (m.runTask t)
      · exact SM.Mid.runTask m t hm (fun c hceq => hts d c (by rw [hceq]; exact List.mem_cons_self _ _))
      · intro d' c' hmem
        have hb := hts d' c' (List.mem_cons_of_mem _ hmem)
        rw [(SM.runTask_fields m t).2.2.2.1]
        exact hb

theorem SM.Inv.attach (m : SM) (hm : SM.Inv m) : SM.Inv m.attach := by
  obtain ⟨i1, i2, i3, i4, i5, i6, i7⟩ := hm
  by_cases hs : m.state = none
  · have ha : m.attach =
        { m with attachedAt := m.attachedAt ++ [m.now],
                 deferredQ := m.deferredQ ++ [m.attachedAt.length] } := by
      simp [SM.attach, hs]
    rw [ha]
    refine ⟨?_, i2, i3, ?_, ?_, ?_, ?_⟩
    · show ∀ ta ∈ m.attachedAt ++ [m.now], ta ≤ m.now
      intro ta hta
      rcases List.mem_append.1 hta with h | h
      · exact i1 ta h
      · rw [List.mem_singleton] at h
        omega
    · show ∀ c ∈ m.deferredQ ++ [m.attachedAt.length],
        c < (m.attachedAt ++ [m.now]).length
      intro c hcq
      rw [List.length_append, List.length_singleton]
      rcases List.mem_append.1 hcq with h | h
      · have := i4 c h
        omega
      · rw [List.mem_singleton] at h
        omega
    · show ∀ d c, (d, STask.runCont c) ∈ m.tasks →
        c < (m.attachedAt ++ [m.now]).length
      intro d c hdc
      have := i5 d c hdc
      rw [List.length_append, List.length_singleton]
      omega
    · show ∀ c t, (c, t) ∈ m.invocations → c < (m.attachedAt ++ [m.now]).length
      intro c t hct
      have := i6 c t hct
      rw [List.length_append, List.length_singleton]
      omega
    · show ∀ c t, (c, t) ∈ m.invocations →
        (∀ ta, (m.attachedAt ++ [m.now])[c]? = some ta → ta < t) ∧
        (∀ ts, m.settledAt = some ts → ts < t)
      intro c t hct
      refine ⟨?_, (i7 c t hct).2⟩
      intro ta hta
      rw [List.getElem?_append_left (i6 c t hct)] at hta
      exact (i7 c t hct).1 ta hta
  · have ha : m.attach =
        { m with attachedAt := m.attachedAt ++ [m.now],
                 tasks := m.tasks ++
                   [(m.now + 1, STask.runCont m.attachedAt.length)] } := by
      simp [SM.attach, hs]
    rw [ha]
    refine ⟨?_, i2, ?_, ?_, ?_, ?_, ?_⟩
    · show ∀ ta ∈ m.attachedAt ++ [m.now], ta ≤ m.now
      intro ta hta
      rcases List.mem_append.1 hta with h | h
      · exact i1 ta h
      · rw [List.mem_singleton] at h
        omega
    · show m.state = none → _
      intro h
      exact absurd h hs
    · show ∀ c ∈ m.deferredQ, c < (m.attachedAt ++ [m.now]).length
      intro c hcq
      have := i4 c hcq
      rw [List.length_append, List.length_singleton]
      omega
    · show ∀ d c, (d, STask.runCont c) ∈
          m.tasks ++ [(m.now + 1, STask.runCont m.attachedAt.length)] →
        c < (m.attachedAt ++ [m.now]).length
      intro d c hdc
      rw [List.length_append, List.length_singleton]
      rcases List.mem_append.1 hdc with h | h
      · have := i5 d c h
        omega
      · rw [List.mem_singleton] at h
        simp only [Prod.mk.injEq, STask.runCont.injEq] at h
        omega
    · show ∀ c t, (c, t) ∈ m.invocations → c < (m.attachedAt ++ [m.now]).length
      intro c t hct
      have := i6 c t hct
      rw [List.length_append, List.length_singleton]
      omega
    · show ∀ c t, (c, t) ∈ m.invocations →
        (∀ ta, (m.attachedAt ++ [m.now])[c]? = some ta → ta < t) ∧
        (∀ ts, m.settledAt = some ts → ts < t)
      intro c t hct
      refine ⟨?_, (i7 c t hct).2⟩
      intro ta hta
      rw [List.getElem?_append_left (i6 c t hct)] at hta
      exact (i7 c t hct).1 ta hta

theorem SM.Inv.settle (m : SM) (b : Bool) (hm : SM.Inv m) : SM.Inv (m.settle b) := by
  obtain ⟨i1, i2, i3, i4, i5, i6, i7⟩ := hm
  by_cases hs : m.state = none
  · obtain ⟨hi0, ht0⟩ := i3 hs
    have ha : m.settle b =
        { m with state := some b, settledAt := some m.now,
                 tasks := m.tasks ++ [(m.now + 1, STask.flush)] } := by
      simp [SM.settle, hs]
    rw [ha]
    refine ⟨i1, ?_, ?_, i4, ?_, ?_, ?_⟩
    · show ∀ ts, some m.now = some ts → ts ≤ m.now
      intro ts hts
      cases hts
      exact le_refl _
    · show some b = none → _
      intro h
      simp at h
    · show ∀ d c, (d, STask.runCont c) ∈ m.tasks ++ [(m.now + 1, STask.flush)] →
        c < m.attachedAt.length
      intro d c hdc
      rcases List.mem_append.1 hdc with h | h
      · exact i5 d c h
      · rw [List.mem_singleton] at h
        simp at h
    · show ∀ c t, (c, t) ∈ m.invocations → c < m.attachedAt.length
      intro c t hct
      rw [hi0] at hct
      simp at hct
    · show ∀ c t, (c, t) ∈ m.invocations → _
      intro c t hct
      rw [hi0] at hct
      simp at hct
  · have ha : m.settle b = m := by simp [SM.settle, hs]
    rw [ha]
    exact ⟨i1, i2, i3, i4, i5, i6, i7⟩

theorem SM.Inv.tick (m : SM) (hm : SM.Inv m) : SM.Inv m.tick := by
  obtain ⟨i1, i2, i3, i4, i5, i6, i7⟩ := hm
  have ht : m.tick = SM.runTasks
      { m with now := m.now + 1,
               tasks := m.tasks.filter (fun dt => ¬ dt.1 ≤ m.now + 1) }
      (m.tasks.filter (fun dt => dt.1 ≤ m.now + 1)) := by
    simp [SM.tick]
  have hmid : SM.Mid
      { m with now := m.now + 1,
               tasks := m.tasks.filter (fun dt => ¬ dt.1 ≤ m.now + 1) } := by
    refine ⟨?_, ?_, i4, i6, i7⟩
    · show ∀ ta ∈ m.attachedAt, ta < m.now + 1
      intro ta hta
      have := i1 ta hta
      omega
    · show ∀ ts, m.settledAt = some ts → ts < m.now + 1
      intro ts hts
      have := i2 ts hts
      omega
  have hdue : ∀ d c,
      (d, STask.runCont c) ∈ m.tasks.filter (fun dt => dt.1 ≤ m.now + 1) →
      c < m.attachedAt.length :=
    fun d c h => i5 d c (List.mem_of_mem_filter h)
  have hfin := SM.Mid.runTasks (m.tasks.filter (fun dt => dt.1 ≤ m.now + 1))
    { m with now := m.now + 1,
             tasks := m.tasks.filter (fun dt => ¬ dt.1 ≤ m.now + 1) } hmid hdue
  obtain ⟨f1, f2, f3, f4, f5⟩ := SM.runTasks_fields
    { m with now := m.now + 1,
             tasks := m.tasks.filter (fun dt => ¬ dt.1 ≤ m.now + 1) }
    (m.tasks.filter (fun dt => dt.1 ≤ m.now + 1))
  obtain ⟨g1, g2, g3, g4, g5⟩ := hfin
  rw [ht]
  refine ⟨?_, ?_, ?_, g3, ?_, g4, g5⟩
  · intro ta hta
    exact le_of_lt (g1 ta hta)
  · intro ts hts
    exact le_of_lt (g2 ts hts)
  · intro hsres
    rw [f2] at hsres
    obtain ⟨hi0, ht0⟩ := i3 hsres
    constructor
    · have h0 : m.tasks.filter (fun dt => dt.1 ≤ m.now + 1) =
          ([] : List (Nat × STask)) := by
        rw [ht0]
        rfl
      rw [h0]
      exact hi0
    · rw [f5]
      show m.tasks.filter (fun dt => ¬ dt.1 ≤ m.now + 1) = []
      rw [ht0]
      rfl
  · intro d c hdc
    rw [f5] at hdc
    have hmem := List.mem_of_mem_filter hdc
    have hb := i5 d c hmem
    rw [f4]
    exact hb

theorem SM.Inv.init : SM.Inv SM.init := by
  refine ⟨?_, ?_, ?_, ?_, ?_, ?_, ?_⟩ <;> simp [SM.init]

theorem SM.Inv.step (m : SM) (op : SOp) (hm : SM.Inv m) : SM.Inv (m.step op) := by
  cases op with
  | attach => exact SM.Inv.attach m hm
  | settle b => exact SM.Inv.settle m b hm
  | tick => exact SM.Inv.tick m hm

theorem SM.Inv.run (ops : List SOp) : SM.Inv (SM.run ops) := by
  suffices h : ∀ (l : List SOp) (m : SM), SM.Inv m → SM.Inv (l.foldl SM.step m) from
    h ops SM.init SM.Inv.init
  intro l
  induction l with
  | nil => intro m hm; exact hm
  | cons op rest ih => intro m hm; exact ih _ (SM.Inv.step m op hm)

/-- C6: under any sequence of attach/settle/tick events, every
continuation invocation happens in a strictly later turn than the
continuation's attachment and than the promise's settlement — whether the
promise was already settled at attachment time (the `defer(callCallbacks)`
branch of line 432) or settled later (the `deferred.push` branch of
line 434 flushed by `set`, lines 399-402), the handler never runs in the
same execution turn as either event. -/
theorem c6_continuation_in_later_turn (ops : List SOp) (c t ta ts : Nat)
    (hin : (c, t) ∈ (SM.run ops).invocations)
    (hatt : (SM.run ops).attachedAt[c]? = some ta)
    (hset : (SM.run ops).settledAt = some ts) :
    ta < t ∧ ts < t := by
  obtain ⟨-, -, -, -, -, -, i7⟩ := SM.Inv.run ops
  exact ⟨(i7 c t hin).1 ta hatt, (i7 c t hin).2 ts hset⟩

theorem c6_continuation_in_later_turn_witness :
    (0, 1) ∈ (SM.run c6demo).invocations ∧ 0 < 1 ∧ 0 < 1 :=
  ⟨by decide, c6_continuation_in_later_turn c6demo 0 1 0 0 (by decide) (by decide) (by decide)⟩

end FileLoader
